import Mathlib

/-!
# Verification of the relay-tty PTY host (crates/pty-host/src/main.rs)

Shallow embedding of the host's pure core: the ring buffer (`OutputBuffer`),
the CSI-query stripper (`strip_terminal_queries`), the RESUME handshake
selection (`handle_resume`), the replay frame construction (`send_replay`),
the client frame decoders, and the metrics-broadcast guard.

Bytes are modelled as `Nat` (the byte-ness of values never matters to the
algorithms verified here).  The Rust code counts bytes in an `f64`
(`total_written`); every reachable value is a non-negative integer and the
spec notes the count is exact below 2^53, so the state carries a `Nat` and
wire-level `f64` values (RESUME offsets) are modelled by the type `F64`
below, with IEEE-754 comparison/cast semantics made explicit.
-/

namespace RelayTTY

/-- Model of an IEEE-754 double as it is consumed by `read_from` and
`handle_resume`: NaN, the two infinities, or a finite value (exact rational;
finite f64 values are rationals, and all arithmetic performed on them by the
code under verification is exact in f64 in the regimes that arise). -/
inductive F64 where
  | nan : F64
  | inf : F64
  | ninf : F64
  | fin : ℚ → F64
deriving DecidableEq

/-- IEEE `>=`: any comparison with NaN is false. -/
def F64.ge : F64 → F64 → Bool
  | .nan, _ => false
  | _, .nan => false
  | .inf, _ => true
  | .ninf, .ninf => true
  | .ninf, _ => false
  | .fin _, .inf => false
  | .fin _, .ninf => true
  | .fin a, .fin b => a ≥ b

/-- IEEE `<`: any comparison with NaN is false. -/
def F64.lt : F64 → F64 → Bool
  | .nan, _ => false
  | _, .nan => false
  | .inf, _ => false
  | .ninf, .ninf => false
  | .ninf, _ => true
  | .fin _, .inf => true
  | .fin _, .ninf => false
  | .fin a, .fin b => a < b

/-- IEEE `<=`: any comparison with NaN is false. -/
def F64.le : F64 → F64 → Bool
  | .nan, _ => false
  | _, .nan => false
  | .inf, .inf => true
  | .inf, _ => false
  | .ninf, _ => true
  | .fin _, .inf => true
  | .fin _, .ninf => false
  | .fin a, .fin b => a ≤ b

/-- IEEE subtraction, for the cases the code exercises (second operand
finite in every call site).  Exact on finite operands. -/
def F64.sub : F64 → F64 → F64
  | .nan, _ => .nan
  | _, .nan => .nan
  | .inf, .inf => .nan
  | .inf, _ => .inf
  | .ninf, .ninf => .nan
  | .ninf, _ => .ninf
  | .fin _, .inf => .ninf
  | .fin _, .ninf => .inf
  | .fin a, .fin b => .fin (a - b)

def USIZE_MAX : ℕ := 2 ^ 64 - 1

/-- Rust's saturating `as usize` cast from f64: NaN and negatives go to 0,
+∞ and overlarge values saturate, finite values truncate toward zero. -/
def F64.toUsize : F64 → ℕ
  | .nan => 0
  | .ninf => 0
  | .inf => USIZE_MAX
  | .fin q => if q < 0 then 0 else min (⌊q⌋.toNat) USIZE_MAX

-- ── Ring buffer (`OutputBuffer` in main.rs) ─────────────────────────

/-- State of `OutputBuffer`.  `buffer` is the backing array (length
`max_size` in every reachable state); `total_written` is the cumulative
byte count (exact `Nat`; the Rust `f64` is exact below 2^53). -/
structure OutputBuffer where
  buffer : List ℕ
  write_pos : ℕ
  filled : Bool
  total_written : ℕ
  max_size : ℕ
deriving DecidableEq

/-- `OutputBuffer::new(max_size)`. -/
def OutputBuffer.new (max_size : ℕ) : OutputBuffer :=
  { buffer := List.replicate max_size 0
    write_pos := 0
    filled := false
    total_written := 0
    max_size := max_size }

/-- `buf[pos .. pos + data.len()] = data` (Rust `copy_from_slice` into a
sub-slice; total length is preserved whenever `pos + data.length ≤
buf.length`, which holds at every call site). -/
def setSlice (buf : List ℕ) (pos : ℕ) (data : List ℕ) : List ℕ :=
  buf.take pos ++ data ++ buf.drop (pos + data.length)

/-- `OutputBuffer::write`. -/
def OutputBuffer.write (b : OutputBuffer) (data : List ℕ) : OutputBuffer :=
  let b : OutputBuffer := { b with total_written := b.total_written + data.length }
  if data.length ≥ b.max_size then
    -- data larger than buffer -- keep the tail
    { b with
      buffer := data.drop (data.length - b.max_size)
      write_pos := 0
      filled := true }
  else
    let space_left := b.max_size - b.write_pos
    let b : OutputBuffer :=
      if data.length ≤ space_left then
        { b with
          buffer := setSlice b.buffer b.write_pos data
          write_pos := b.write_pos + data.length }
      else
        -- wrap around
        let remaining := data.length - space_left
        { b with
          buffer := setSlice (setSlice b.buffer b.write_pos (data.take space_left))
                      0 (data.drop space_left)
          write_pos := remaining
          filled := true }
    if b.write_pos ≥ b.max_size then
      { b with write_pos := 0, filled := true }
    else
      b

/-- `OutputBuffer::size`: the logical size. -/
def OutputBuffer.size (b : OutputBuffer) : ℕ :=
  if b.filled then b.max_size else b.write_pos

/-- `OutputBuffer::read_raw`: the linearized logical contents, without
sanitization (the spec's `readLinear()`). -/
def OutputBuffer.read_raw (b : OutputBuffer) : List ℕ :=
  if !b.filled then
    b.buffer.take b.write_pos
  else
    b.buffer.drop b.write_pos ++ b.buffer.take b.write_pos

/-- `sanitize_start`: after a wrap, drop everything up to and including the
first newline (unless the buffer starts with one, or has none). -/
def sanitize_start (buf : List ℕ) : List ℕ :=
  match buf.indexOf? 10 with
  | some idx => if idx = 0 then buf else buf.drop (idx + 1)
  | none => buf

/-- `OutputBuffer::read`: full-replay read (sanitized once wrapped). -/
def OutputBuffer.read (b : OutputBuffer) : List ℕ :=
  if !b.filled then
    b.buffer.take b.write_pos
  else
    sanitize_start (b.buffer.drop b.write_pos ++ b.buffer.take b.write_pos)

/-- `OutputBuffer::read_from(offset)`: delta read from a global `f64`
offset.  `none` models Rust's `None` ("too old"). -/
def OutputBuffer.read_from (b : OutputBuffer) (offset : F64) : Option (List ℕ) :=
  if F64.ge offset (.fin b.total_written) then
    some []                       -- fully caught up
  else
    let size := b.size
    let buffer_start : ℚ := (b.total_written : ℚ) - size
    if F64.lt offset (.fin buffer_start) then
      none                        -- too old, data overwritten
    else
      let skip_bytes := (F64.sub offset (.fin buffer_start)).toUsize
      some ((b.read_raw).drop skip_bytes)

/-- A buffer state reached from `OutputBuffer.new C` by a sequence of
writes. -/
def writeAll (C : ℕ) (ds : List (List ℕ)) : OutputBuffer :=
  ds.foldl OutputBuffer.write (OutputBuffer.new C)

-- ── Ring-buffer invariants ──────────────────────────────────────────

/-- The state invariant maintained by `write`. -/
def BufInv (b : OutputBuffer) : Prop :=
  b.buffer.length = b.max_size ∧
  (0 < b.max_size → b.write_pos < b.max_size) ∧
  b.write_pos ≤ b.max_size ∧
  b.size ≤ b.total_written

theorem setSlice_length (buf : List ℕ) (pos : ℕ) (data : List ℕ)
    (h : pos + data.length ≤ buf.length) :
    (setSlice buf pos data).length = buf.length := by
  simp only [setSlice, List.length_append, List.length_take, List.length_drop]
  omega

theorem new_inv (C : ℕ) : BufInv (OutputBuffer.new C) := by
  refine ⟨by simp [OutputBuffer.new], ?_, ?_, ?_⟩ <;>
    simp [OutputBuffer.new, OutputBuffer.size]

theorem write_inv (b : OutputBuffer) (data : List ℕ) (h : BufInv b) :
    BufInv (b.write data) := by
  obtain ⟨hlen, hposlt, hposle, hsz⟩ := h
  simp only [OutputBuffer.size] at hsz
  unfold OutputBuffer.write
  dsimp only
  by_cases hge : data.length ≥ b.max_size
  · rw [if_pos hge]
    unfold BufInv OutputBuffer.size
    dsimp only
    simp only [List.length_drop, if_true]
    refine ⟨by omega, by omega, by omega, ?_⟩
    split at hsz <;> omega
  · rw [if_neg hge]
    push_neg at hge
    by_cases hfit : data.length ≤ b.max_size - b.write_pos
    · rw [if_pos hfit]
      dsimp only
      have hslice : (setSlice b.buffer b.write_pos data).length = b.max_size := by
        rw [setSlice_length _ _ _ (by omega)]; exact hlen
      split
      · rename_i hend
        unfold BufInv OutputBuffer.size
        dsimp only
        refine ⟨hslice, by omega, by omega, ?_⟩
        simp only [if_true]
        split at hsz <;> omega
      · rename_i hend
        push_neg at hend
        unfold BufInv OutputBuffer.size
        dsimp only
        refine ⟨hslice, by omega, by omega, ?_⟩
        split at hsz <;> split <;> first
          | (simp_all; omega)
          | simp_all
    · rw [if_neg hfit]
      push_neg at hfit
      dsimp only
      have hslice :
          (setSlice (setSlice b.buffer b.write_pos (data.take (b.max_size - b.write_pos)))
            0 (data.drop (b.max_size - b.write_pos))).length = b.max_size := by
        rw [setSlice_length, setSlice_length _ _ _ (by simp only [List.length_take]; omega)]
        · exact hlen
        · rw [setSlice_length _ _ _ (by simp only [List.length_take]; omega), hlen]
          simp only [List.length_drop]
          omega
      split
      · rename_i hend
        unfold BufInv OutputBuffer.size
        dsimp only
        refine ⟨hslice, by omega, by omega, ?_⟩
        simp only [if_true]
        split at hsz <;> omega
      · rename_i hend
        push_neg at hend
        unfold BufInv OutputBuffer.size
        dsimp only
        refine ⟨hslice, by omega, by omega, ?_⟩
        simp only [if_true]
        split at hsz <;> omega

theorem writeAll_inv (C : ℕ) (ds : List (List ℕ)) : BufInv (writeAll C ds) := by
  suffices h : ∀ (b : OutputBuffer), BufInv b → BufInv (ds.foldl OutputBuffer.write b) by
    exact h _ (new_inv C)
  induction ds with
  | nil => intro b hb; exact hb
  | cons d ds ih =>
    intro b hb
    exact ih _ (write_inv b d hb)

theorem read_raw_length (b : OutputBuffer) (h : BufInv b) :
    b.read_raw.length = b.size := by
  obtain ⟨hlen, _, hposle, _⟩ := h
  unfold OutputBuffer.read_raw OutputBuffer.size
  cases hf : b.filled <;> simp [hf, hlen] <;> omega

theorem writeAll_max_size (C : ℕ) (ds : List (List ℕ)) :
    (writeAll C ds).max_size = C := by
  suffices h : ∀ (b : OutputBuffer),
      (ds.foldl OutputBuffer.write b).max_size = b.max_size by
    simpa [writeAll, OutputBuffer.new] using h (OutputBuffer.new C)
  induction ds with
  | nil => intro b; rfl
  | cons d ds ih =>
    intro b
    rw [List.foldl_cons, ih]
    unfold OutputBuffer.write
    simp only
    split
    · rfl
    · split <;> split <;> rfl

theorem size_le_max (b : OutputBuffer) (h : BufInv b) : b.size ≤ b.max_size := by
  obtain ⟨_, _, hposle, _⟩ := h
  unfold OutputBuffer.size
  split <;> omega

/-- Characterization of `read_from` at exact (natural-number) offsets, for
any state satisfying the invariant and a realistic capacity.  All f64
comparisons and the `as usize` cast are computed out. -/
theorem read_from_nat (b : OutputBuffer) (h : BufInv b) (hmax : b.max_size < 2 ^ 64)
    (offset : ℕ) :
    b.read_from (.fin offset) =
      if b.total_written ≤ offset then some []
      else if offset < b.total_written - b.size then none
      else some (b.read_raw.drop (offset - (b.total_written - b.size))) := by
  have hsz : b.size ≤ b.total_written := h.2.2.2
  have hszmax : b.size ≤ b.max_size := size_le_max b h
  have hbs : ((b.total_written : ℚ) - (b.size : ℚ)) = ((b.total_written - b.size : ℕ) : ℚ) := by
    rw [Nat.cast_sub hsz]
  unfold OutputBuffer.read_from
  dsimp only
  by_cases hcaught : b.total_written ≤ offset
  · have hge : F64.ge (.fin (offset : ℚ)) (.fin (b.total_written : ℚ)) = true := by
      simp only [F64.ge, ge_iff_le, decide_eq_true_eq, Nat.cast_le]
      exact hcaught
    rw [if_pos hge, if_pos hcaught]
  · have hge : ¬ (F64.ge (.fin (offset : ℚ)) (.fin (b.total_written : ℚ)) = true) := by
      simp only [F64.ge, ge_iff_le, decide_eq_true_eq, Nat.cast_le]
      omega
    rw [if_neg hge, if_neg hcaught]
    by_cases hold : offset < b.total_written - b.size
    · have hlt : F64.lt (.fin (offset : ℚ))
          (.fin ((b.total_written : ℚ) - (b.size : ℚ))) = true := by
        simp only [F64.lt, decide_eq_true_eq, hbs, Nat.cast_lt]
        exact hold
      rw [if_pos hlt, if_pos hold]
    · have hlt : ¬ (F64.lt (.fin (offset : ℚ))
          (.fin ((b.total_written : ℚ) - (b.size : ℚ))) = true) := by
        simp only [F64.lt, decide_eq_true_eq, hbs, Nat.cast_lt]
        omega
      rw [if_neg hlt, if_neg hold]
      have hsub : F64.sub (.fin (offset : ℚ))
          (.fin ((b.total_written : ℚ) - (b.size : ℚ))) =
          .fin ((offset - (b.total_written - b.size) : ℕ) : ℚ) := by
        simp only [F64.sub, hbs, F64.fin.injEq]
        rw [← Nat.cast_sub (by omega)]
      rw [hsub]
      have htu : F64.toUsize (.fin ((offset - (b.total_written - b.size) : ℕ) : ℚ)) =
          offset - (b.total_written - b.size) := by
        simp only [F64.toUsize]
        rw [if_neg (not_lt.mpr (Nat.cast_nonneg _))]
        rw [Int.floor_natCast]
        simp only [Int.toNat_natCast]
        have hlt2 : offset - (b.total_written - b.size) < b.max_size := by omega
        unfold USIZE_MAX
        omega
      rw [htu]

/-- C1: `readFrom` is correct delta replay: a caught-up offset reads empty,
an overwritten offset reads `none` ("too old"), and an in-window offset
reads the suffix of the linearized contents (`read_raw`, the spec's
`readLinear`) starting at `offset − bufferStart`, which has length
`total_written − offset` and is a suffix of `readLinear()`. -/
theorem readFrom_delta_correct (C : ℕ) (hC64 : C < 2 ^ 64) (ds : List (List ℕ))
    (offset : ℕ) :
    ((writeAll C ds).total_written ≤ offset →
      (writeAll C ds).read_from (.fin offset) = some []) ∧
    (offset < (writeAll C ds).total_written - (writeAll C ds).size →
      (writeAll C ds).read_from (.fin offset) = none) ∧
    ((writeAll C ds).total_written - (writeAll C ds).size ≤ offset →
      offset < (writeAll C ds).total_written →
      (writeAll C ds).read_from (.fin offset) =
        some ((writeAll C ds).read_raw.drop
          (offset - ((writeAll C ds).total_written - (writeAll C ds).size))) ∧
      ((writeAll C ds).read_raw.drop
          (offset - ((writeAll C ds).total_written - (writeAll C ds).size))).length =
        (writeAll C ds).total_written - offset ∧
      (writeAll C ds).read_raw.drop
          (offset - ((writeAll C ds).total_written - (writeAll C ds).size)) <:+
        (writeAll C ds).read_raw) := by
  have hinv := writeAll_inv C ds
  have hmax : (writeAll C ds).max_size < 2 ^ 64 := by
    rw [writeAll_max_size]; exact hC64
  have heq := read_from_nat (writeAll C ds) hinv hmax offset
  have hsz : (writeAll C ds).size ≤ (writeAll C ds).total_written := hinv.2.2.2
  have hraw : (writeAll C ds).read_raw.length = (writeAll C ds).size :=
    read_raw_length _ hinv
  refine ⟨?_, ?_, ?_⟩
  · intro hc
    rw [heq, if_pos hc]
  · intro hc
    rw [heq, if_neg (by omega), if_pos hc]
  · intro h1 h2
    refine ⟨by rw [heq, if_neg (by omega), if_neg (by omega)], ?_, List.drop_suffix _ _⟩
    rw [List.length_drop, hraw]
    omega

/-- Witness for C1: a concrete wrapped buffer.  Writing `[1,2,3]` then
`[4,5,6]` into a 4-byte ring gives linear contents `[3,4,5,6]`,
`total_written = 6`, `bufferStart = 2`; reading from offset 3 returns the
suffix `[4,5,6]` of length 3. -/
theorem readFrom_delta_correct_witness :
    (writeAll 4 [[1, 2, 3], [4, 5, 6]]).read_from (.fin 3) = some [4, 5, 6] := by
  have h := (readFrom_delta_correct 4 (by norm_num) [[1, 2, 3], [4, 5, 6]] 3).2.2
    (by decide) (by decide)
  have h1 := h.1
  simpa using h1

/-- C2: after every sequence of writes into a ring of positive capacity
`C`, `write_pos` stays in `[0, C)`, the logical size is `C` when filled and
`write_pos` otherwise, and `total_written` dominates the logical size. -/
theorem write_invariants (C : ℕ) (hC : 0 < C) (ds : List (List ℕ)) :
    (writeAll C ds).write_pos < C ∧
    (writeAll C ds).size = (if (writeAll C ds).filled then C else (writeAll C ds).write_pos) ∧
    (writeAll C ds).size ≤ (writeAll C ds).total_written := by
  obtain ⟨hlen, hlt, hle, hsz⟩ := writeAll_inv C ds
  have hms := writeAll_max_size C ds
  refine ⟨?_, ?_, hsz⟩
  · have hwp := hlt (by omega)
    omega
  · unfold OutputBuffer.size
    rw [hms]

/-- Witness for C2 at a concrete wrapped state. -/
theorem write_invariants_witness :
    (writeAll 4 [[9, 9, 9], [8, 8]]).write_pos < 4 ∧
    (writeAll 4 [[9, 9, 9], [8, 8]]).size =
      (if (writeAll 4 [[9, 9, 9], [8, 8]]).filled then 4
       else (writeAll 4 [[9, 9, 9], [8, 8]]).write_pos) ∧
    (writeAll 4 [[9, 9, 9], [8, 8]]).size ≤ (writeAll 4 [[9, 9, 9], [8, 8]]).total_written :=
  write_invariants 4 (by norm_num) [[9, 9, 9], [8, 8]]

/-- C7 counterexample: after writing two bytes into a fresh 4-byte ring,
`read_from(+∞)` hits the `offset ≥ total_written` branch and returns the
empty delta ("caught up"), while `read_from(0)` returns the full contents
`[1, 2]` — a non-finite offset does not behave like offset 0. -/
theorem read_from_inf_cex :
    (writeAll 4 [[1, 2]]).read_from F64.inf = some [] ∧
    (writeAll 4 [[1, 2]]).read_from (.fin ((0 : ℕ) : ℚ)) = some [1, 2] := by
  constructor
  · rfl
  · rw [read_from_nat (writeAll 4 [[1, 2]]) (writeAll_inv 4 [[1, 2]])
      (by rw [writeAll_max_size]; norm_num) 0]
    decide

/-- C7 as the code actually behaves, for any reachable buffer state: a NaN
offset falls through both comparisons, the `as usize` cast sends NaN to 0,
and the full raw contents are returned (offset-0 behaviour); a −∞ or
negative finite offset compares below `bufferStart` and returns `none`
("too old", which the resume handler turns into a full replay); a +∞
offset satisfies `offset ≥ total_written` and returns the empty delta
("caught up") — not a full replay. -/
theorem read_from_nonfinite (C : ℕ) (ds : List (List ℕ)) :
    (writeAll C ds).read_from F64.nan = some (writeAll C ds).read_raw ∧
    (writeAll C ds).read_from F64.ninf = none ∧
    (∀ q : ℚ, q < 0 → (writeAll C ds).read_from (.fin q) = none) ∧
    (writeAll C ds).read_from F64.inf = some [] := by
  have hinv := writeAll_inv C ds
  have hsz : (writeAll C ds).size ≤ (writeAll C ds).total_written := hinv.2.2.2
  refine ⟨?_, ?_, ?_, ?_⟩
  · unfold OutputBuffer.read_from
    dsimp only
    rw [if_neg (by simp [F64.ge]), if_neg (by simp [F64.lt])]
    simp [F64.sub, F64.toUsize]
  · unfold OutputBuffer.read_from
    dsimp only
    rw [if_neg (by simp [F64.ge]), if_pos (by simp [F64.lt])]
  · intro q hq
    unfold OutputBuffer.read_from
    dsimp only
    rw [if_neg, if_pos]
    · simp only [F64.lt, decide_eq_true_eq]
      have h0 : (0 : ℚ) ≤ ((writeAll C ds).total_written : ℚ) - (writeAll C ds).size := by
        rw [sub_nonneg, Nat.cast_le]
        exact hsz
      linarith
    · simp only [F64.ge, ge_iff_le, decide_eq_true_eq]
      intro hc
      have h0 : (0 : ℚ) ≤ ((writeAll C ds).total_written : ℚ) := Nat.cast_nonneg _
      linarith
  · unfold OutputBuffer.read_from
    dsimp only
    rw [if_pos (by simp [F64.ge])]

/-- Witness for the amended C7 at the state written `[1, 2]` into a 4-byte
ring: NaN reads the full raw contents and a negative offset reads `none`. -/
theorem read_from_nonfinite_witness :
    (writeAll 4 [[1, 2]]).read_from F64.nan = some (writeAll 4 [[1, 2]]).read_raw ∧
    (writeAll 4 [[1, 2]]).read_from (.fin (-1)) = none :=
  ⟨(read_from_nonfinite 4 [[1, 2]]).1,
   (read_from_nonfinite 4 [[1, 2]]).2.2.1 (-1) (by norm_num)⟩

/-- C5: a write at least as large as the capacity replaces the whole
buffer with the last `C` bytes of the data (stored from index 0), resets
`write_pos` to 0, sets `filled`, and still counts the full length into
`total_written`. -/
theorem write_oversized (b : OutputBuffer) (data : List ℕ)
    (h : data.length ≥ b.max_size) :
    (b.write data).buffer = data.drop (data.length - b.max_size) ∧
    (b.write data).read_raw = data.drop (data.length - b.max_size) ∧
    (b.write data).write_pos = 0 ∧
    (b.write data).filled = true ∧
    (b.write data).total_written = b.total_written + data.length := by
  have hw : b.write data =
      { buffer := data.drop (data.length - b.max_size)
        write_pos := 0
        filled := true
        total_written := b.total_written + data.length
        max_size := b.max_size } := by
    unfold OutputBuffer.write
    dsimp only
    rw [if_pos h]
  rw [hw]
  refine ⟨rfl, ?_, rfl, rfl, rfl⟩
  unfold OutputBuffer.read_raw
  simp

/-- Witness for C5: writing 5 bytes into a 3-byte ring keeps `[3, 4, 5]`. -/
theorem write_oversized_witness :
    ((OutputBuffer.new 3).write [1, 2, 3, 4, 5]).read_raw = [3, 4, 5] ∧
    ((OutputBuffer.new 3).write [1, 2, 3, 4, 5]).write_pos = 0 ∧
    ((OutputBuffer.new 3).write [1, 2, 3, 4, 5]).filled = true ∧
    ((OutputBuffer.new 3).write [1, 2, 3, 4, 5]).total_written = 0 + 5 := by
  have h := write_oversized (OutputBuffer.new 3) [1, 2, 3, 4, 5] (by decide)
  exact ⟨by rw [h.2.1]; decide, h.2.2.1, h.2.2.2.1, by rw [h.2.2.2.2]; decide⟩

-- ── `strip_terminal_queries` ────────────────────────────────────────

/-- A CSI parameter/intermediate byte: `0x20 ≤ b ≤ 0x3f`. -/
def isParamByte (c : ℕ) : Bool := 0x20 ≤ c && c ≤ 0x3f

/-- The query test of `strip_terminal_queries`: DSR (final byte `n` with
parameters `"6"` or `"?6"`) or DA (final byte `c` with parameters empty,
`">"`, `"="` or `"0"`).  Parameter bytes all lie in `[0x20, 0x3f]`, hence
are valid single-byte UTF-8, so Rust's `params_str` comparisons are plain
byte-list comparisons. -/
def isQuery (final_byte : ℕ) (params : List ℕ) : Bool :=
  (final_byte == 0x6e && (params == [0x36] || params == [0x3f, 0x36])) ||
  (final_byte == 0x63 &&
    (params == [] || params == [0x3e] || params == [0x3d] || params == [0x30]))

theorem length_dropWhile_le (p : ℕ → Bool) (l : List ℕ) :
    (l.dropWhile p).length ≤ l.length := by
  induction l with
  | nil => simp
  | cons a l ih =>
    rw [List.dropWhile_cons]
    split
    · simp only [List.length_cons]
      omega
    · simp

/-- `strip_terminal_queries`: the Rust index `i` is the consumed prefix,
the scan `while data[j] ∈ [0x20,0x3f]` is `takeWhile`/`dropWhile` on the
bytes after `ESC [`, `j < data.len()` is `dropWhile ≠ []`, the final byte
is its head, and `i = j + 1` resumes at its tail. -/
def strip_terminal_queries : List ℕ → List ℕ
  | [] => []
  | [b] => [b]
  | b :: b2 :: rest2 =>
    if b = 0x1b ∧ b2 = 0x5b then
      if rest2.dropWhile isParamByte ≠ [] ∧
          isQuery ((rest2.dropWhile isParamByte).headI)
            (rest2.takeWhile isParamByte) = true then
        strip_terminal_queries ((rest2.dropWhile isParamByte).tail)
      else
        b :: strip_terminal_queries (b2 :: rest2)
    else
      b :: strip_terminal_queries (b2 :: rest2)
termination_by l => l.length
decreasing_by
  · simp only [List.length_cons]
    have h1 := length_dropWhile_le isParamByte rest2
    have h2 : ((rest2.dropWhile isParamByte).tail).length ≤
        (rest2.dropWhile isParamByte).length := by
      cases rest2.dropWhile isParamByte <;> simp
    omega
  all_goals (simp only [List.length_cons]; omega)

open List in
theorem takeWhile_all_append (p : ℕ → Bool) :
    ∀ (l1 : List ℕ), l1.all p = true → ∀ (x : ℕ), p x = false → ∀ (l2 : List ℕ),
      (l1 ++ x :: l2).takeWhile p = l1 ∧ (l1 ++ x :: l2).dropWhile p = x :: l2 := by
  intro l1
  induction l1 with
  | nil =>
    intro _ x hx l2
    simp [List.takeWhile_cons, List.dropWhile_cons, hx]
  | cons a l1 ih =>
    intro hall x hx l2
    simp only [List.all_cons, Bool.and_eq_true] at hall
    have h := ih hall.2 x hx l2
    simp [List.takeWhile_cons, List.dropWhile_cons, hall.1, h.1, h.2]

/-- The head of a byte list starts a strippable query: it is
`ESC [ <params> <final>` with every parameter byte in `[0x20, 0x3f]` and
the final byte/parameter string matching the DSR/DA tests. -/
def startsQuery (l : List ℕ) : Prop :=
  ∃ params fb rest, l = 0x1b :: 0x5b :: (params ++ fb :: rest) ∧
    params.all isParamByte = true ∧ isQuery fb params = true

theorem isQuery_not_param (fb : ℕ) (params : List ℕ) (h : isQuery fb params = true) :
    isParamByte fb = false := by
  simp only [isQuery, Bool.or_eq_true, Bool.and_eq_true, beq_iff_eq] at h
  rcases h with ⟨h, -⟩ | ⟨h, -⟩ <;> subst h <;> decide

/-- C4, part 1: a DSR/DA query sequence at the head is removed whole, and
scanning resumes right after its final byte. -/
theorem strip_drops_query (params : List ℕ) (fb : ℕ) (rest : List ℕ)
    (hall : params.all isParamByte = true) (hq : isQuery fb params = true) :
    strip_terminal_queries (0x1b :: 0x5b :: (params ++ fb :: rest)) =
      strip_terminal_queries rest := by
  have hfb : isParamByte fb = false := isQuery_not_param fb params hq
  obtain ⟨htw, hdw⟩ := takeWhile_all_append isParamByte params hall fb hfb rest
  rw [strip_terminal_queries]
  rw [if_pos ⟨rfl, rfl⟩]
  rw [if_pos]
  · rw [hdw, List.tail_cons]
  · rw [hdw, htw]
    simp [hq]

open List in
theorem strip_keeps_nonquery (b : ℕ) (rest : List ℕ) (h : ¬ startsQuery (b :: rest)) :
    strip_terminal_queries (b :: rest) = b :: strip_terminal_queries rest := by
  match rest with
  | [] => simp [strip_terminal_queries]
  | b2 :: rest2 =>
    rw [strip_terminal_queries]
    by_cases hcsi : b = 0x1b ∧ b2 = 0x5b
    · rw [if_pos hcsi]
      rw [if_neg]
      intro ⟨hne, hq⟩
      apply h
      obtain ⟨fb, rest3, hfr⟩ : ∃ fb rest3, rest2.dropWhile isParamByte = fb :: rest3 := by
        cases hd : rest2.dropWhile isParamByte with
        | nil => exact absurd hd hne
        | cons fb rest3 => exact ⟨fb, rest3, rfl⟩
      refine ⟨rest2.takeWhile isParamByte, fb, rest3, ?_, List.all_takeWhile .., ?_⟩
      · rw [hcsi.1, hcsi.2]
        have hsplit : rest2 = rest2.takeWhile isParamByte ++ fb :: rest3 := by
          rw [← hfr, List.takeWhile_append_dropWhile]
        rw [← hsplit]
      · rw [hfr] at hq
        simpa using hq
    · rw [if_neg hcsi]

/-- C4, part 3 (shared helper): on ESC-free input the stripper is the
identity. -/
theorem strip_no_esc :
    ∀ (data : List ℕ), (∀ x ∈ data, x ≠ 0x1b) → strip_terminal_queries data = data := by
  intro data
  induction data with
  | nil => intro _; simp [strip_terminal_queries]
  | cons b rest ih =>
    intro h
    match rest with
    | [] => simp [strip_terminal_queries]
    | b2 :: rest2 =>
      rw [strip_terminal_queries, if_neg]
      · rw [ih (fun x hx => h x (List.mem_cons_of_mem b hx))]
      · intro ⟨hb, _⟩
        exact h b (List.mem_cons_self b _) hb

/-- C4: `strip_terminal_queries` removes exactly the DSR/DA query
sequences: (1) a query at the head is dropped whole and scanning resumes
after it, (2) any position not starting a query contributes its head byte
unchanged, and (3) on input with no ESC byte the output equals the
input. -/
theorem strip_terminal_queries_characterization :
    (∀ params fb rest, params.all isParamByte = true → isQuery fb params = true →
      strip_terminal_queries (0x1b :: 0x5b :: (params ++ fb :: rest)) =
        strip_terminal_queries rest) ∧
    (∀ b rest, ¬ startsQuery (b :: rest) →
      strip_terminal_queries (b :: rest) = b :: strip_terminal_queries rest) ∧
    (∀ data, (∀ x ∈ data, x ≠ 0x1b) → strip_terminal_queries data = data) :=
  ⟨strip_drops_query, strip_keeps_nonquery, strip_no_esc⟩

/-- Witness for C4: the DSR query `ESC [ 6 n` before `"A"` is dropped, the
SGR sequence `ESC [ 1 m` does not start a query so its ESC passes through,
and ESC-free input is returned unchanged. -/
theorem strip_terminal_queries_characterization_witness :
    strip_terminal_queries [0x1b, 0x5b, 0x36, 0x6e, 0x41] =
      strip_terminal_queries [0x41] ∧
    strip_terminal_queries [0x1b, 0x5b, 0x31, 0x6d] =
      0x1b :: strip_terminal_queries [0x5b, 0x31, 0x6d] ∧
    strip_terminal_queries [0x68, 0x69] = [0x68, 0x69] := by
  refine ⟨strip_terminal_queries_characterization.1 [0x36] 0x6e [0x41]
      (by decide) (by decide),
    strip_terminal_queries_characterization.2.1 0x1b [0x5b, 0x31, 0x6d] ?_,
    strip_terminal_queries_characterization.2.2 [0x68, 0x69] (by decide)⟩
  rintro ⟨params, fb, rest, heq, hall, hq⟩
  have hcons : params ++ fb :: rest = [0x31, 0x6d] := by
    simpa using heq.symm
  match params, hcons with
  | [], hcons =>
    simp only [List.nil_append, List.cons.injEq] at hcons
    rw [hcons.1] at hq
    exact absurd hq (by decide)
  | [p1], hcons =>
    simp only [List.cons_append, List.nil_append, List.cons.injEq] at hcons
    rw [hcons.1, hcons.2.1] at hq
    exact absurd hq (by decide)
  | p1 :: p2 :: ps, hcons =>
    simp only [List.cons_append, List.cons.injEq] at hcons
    have : ps ++ fb :: rest = [] := hcons.2.2
    simp at this

open List in
theorem strip_sublist_aux :
    ∀ (n : ℕ) (data : List ℕ), data.length ≤ n → strip_terminal_queries data <+ data := by
  intro n
  induction n with
  | zero =>
    intro data hlen
    match data with
    | [] => simp [strip_terminal_queries]
  | succ n ih =>
    intro data hlen
    match data with
    | [] => simp [strip_terminal_queries]
    | [b] => simp [strip_terminal_queries]
    | b :: b2 :: rest2 =>
      rw [strip_terminal_queries]
      split
      · split
        · rename_i hq
          have hsub : (rest2.dropWhile isParamByte).tail <+ rest2 :=
            ((rest2.dropWhile isParamByte).tail_sublist).trans
              (List.dropWhile_sublist isParamByte)
          have hlen2 : ((rest2.dropWhile isParamByte).tail).length ≤ n := by
            have h1 := hsub.length_le
            simp only [List.length_cons] at hlen
            omega
          exact ((ih _ hlen2).trans hsub).trans
            ((List.sublist_cons_self b2 rest2).trans (List.sublist_cons_self b _))
        · refine List.cons_sublist_cons.mpr (ih (b2 :: rest2) ?_)
          simp only [List.length_cons] at hlen ⊢
          omega
      · refine List.cons_sublist_cons.mpr (ih (b2 :: rest2) ?_)
        simp only [List.length_cons] at hlen ⊢
        omega

open List in
/-- C10: the stripper only deletes bytes — its output is a subsequence of
its input (hence never longer): it cannot insert, duplicate or reorder. -/
theorem strip_terminal_queries_sublist (data : List ℕ) :
    strip_terminal_queries data <+ data ∧
    (strip_terminal_queries data).length ≤ data.length := by
  have h := strip_sublist_aux data.length data le_rfl
  exact ⟨h, h.length_le⟩

-- ── RESUME handshake (`handle_resume` in main.rs) ───────────────────

/-- Big-endian byte assembly (each byte reduced mod 256, as in Rust where
the type enforces it). -/
def beBytesToNat (bytes : List ℕ) : ℕ :=
  bytes.foldl (fun acc b => acc * 256 + b % 256) 0

/-- `f64::from_be_bytes` on an 8-byte body: IEEE-754 binary64 decoding
into the `F64` model — sign/exponent/mantissa split, NaN and infinities
for exponent 2047, subnormals for exponent 0, and exact rational value
otherwise. -/
def f64_from_be_bytes (bytes : List ℕ) : F64 :=
  let bits : ℕ := beBytesToNat bytes
  let s : ℕ := bits / 2 ^ 63
  let e : ℕ := bits / 2 ^ 52 % 2 ^ 11
  let m : ℕ := bits % 2 ^ 52
  if e = 2047 then
    if m = 0 then (if s = 1 then .ninf else .inf) else .nan
  else
    let mag : ℚ :=
      if e = 0 then (m : ℚ) * (2 : ℚ) ^ (-(1074 : ℤ))
      else ((2 ^ 52 + m : ℕ) : ℚ) * (2 : ℚ) ^ ((e : ℤ) - 1075)
    if s = 1 then .fin (-mag) else .fin mag

/-- What the resume handler selects to send to the client: the sanitized
full buffer (`OutputBuffer.read`) or the delta returned by `read_from`. -/
inductive ReplaySelection where
  | fullReplay (bytes : List ℕ)
  | deltaReplay (bytes : List ℕ)
deriving DecidableEq

/-- `handle_resume`: body shorter than 8 bytes or decoded offset `≤ 0.0`
or `read_from` returning `None` give a full replay, otherwise the delta. -/
def handle_resume (b : OutputBuffer) (data : List ℕ) : ReplaySelection :=
  if data.length < 8 then
    .fullReplay b.read
  else
    let client_offset := f64_from_be_bytes (data.take 8)
    if F64.le client_offset (.fin 0) then
      .fullReplay b.read
    else
      match b.read_from client_offset with
      | some delta => .deltaReplay delta
      | none => .fullReplay b.read

/-- C3: the RESUME handshake decision — a short body, a decoded offset
`≤ 0.0`, or a "too old" (`None`) delta read all cause a full replay; an
in-range offset sends exactly the delta bytes `read_from` returned. -/
theorem handle_resume_cases (b : OutputBuffer) (data : List ℕ) :
    (data.length < 8 → handle_resume b data = .fullReplay b.read) ∧
    (8 ≤ data.length →
      (F64.le (f64_from_be_bytes (data.take 8)) (.fin 0) = true →
        handle_resume b data = .fullReplay b.read) ∧
      (F64.le (f64_from_be_bytes (data.take 8)) (.fin 0) = false →
        (b.read_from (f64_from_be_bytes (data.take 8)) = none →
          handle_resume b data = .fullReplay b.read) ∧
        (∀ delta, b.read_from (f64_from_be_bytes (data.take 8)) = some delta →
          handle_resume b data = .deltaReplay delta))) := by
  refine ⟨?_, ?_⟩
  · intro h
    unfold handle_resume
    rw [if_pos h]
  · intro h8
    refine ⟨?_, ?_⟩
    · intro hle
      unfold handle_resume
      rw [if_neg (by omega), if_pos hle]
    · intro hle
      refine ⟨?_, ?_⟩
      · intro hnone
        unfold handle_resume
        rw [if_neg (by omega), if_neg (by simp [hle]), hnone]
      · intro delta hdelta
        unfold handle_resume
        rw [if_neg (by omega), if_neg (by simp [hle]), hdelta]

/-- Witness for C3: an empty body gives a full replay; a body decoding to
−∞ is `≤ 0.0` and gives a full replay; a body decoding to +∞ is `> 0.0`
and `read_from` succeeds with the empty delta, which is sent as-is. -/
theorem handle_resume_cases_witness :
    handle_resume (writeAll 4 [[1, 2]]) [] = .fullReplay [1, 2] ∧
    handle_resume (writeAll 4 [[1, 2]])
      [0xff, 0xf0, 0, 0, 0, 0, 0, 0] = .fullReplay [1, 2] ∧
    handle_resume (writeAll 4 [[1, 2]])
      [0x7f, 0xf0, 0, 0, 0, 0, 0, 0] = .deltaReplay [] := by
  refine ⟨?_, ?_, ?_⟩
  · have h := (handle_resume_cases (writeAll 4 [[1, 2]]) []).1 (by decide)
    rw [h]
    rfl
  · have h := ((handle_resume_cases (writeAll 4 [[1, 2]])
        [0xff, 0xf0, 0, 0, 0, 0, 0, 0]).2 (by decide)).1 (by decide)
    rw [h]
    rfl
  · have h := ((((handle_resume_cases (writeAll 4 [[1, 2]])
        [0x7f, 0xf0, 0, 0, 0, 0, 0, 0]).2 (by decide)).2 (by decide)).2) [] (by decide)
    rw [h]

-- ── Replay frame construction (`send_replay` in main.rs) ────────────

def GZIP_THRESHOLD : ℕ := 4096

/-- The replay frame a client receives: uncompressed `BUFFER_REPLAY`
(0x03) or gzip-compressed `BUFFER_REPLAY_GZ` (0x13). -/
inductive ReplayFrame where
  | replay (bytes : List ℕ)
  | replayGz (bytes : List ℕ)
deriving DecidableEq

/-- The replay-frame selection of `send_replay`.  The gzip encoder is external
(flate2), so it is a parameter; `gzip cleaned = none` models
`encoder.finish()` returning `Err`.  Returns the replay frame written to
the socket, if any (the SYNC/TITLE/SESSION_STATE frames that follow are
unconditional and not part of this decision). -/
def send_replay_frame (gzip : List ℕ → Option (List ℕ)) (buf_data : List ℕ) :
    Option ReplayFrame :=
  let cleaned := if buf_data ≠ [] then strip_terminal_queries buf_data else []
  if cleaned ≠ [] then
    if GZIP_THRESHOLD ≤ cleaned.length then
      match gzip cleaned with
      | some compressed =>
          if compressed.length < cleaned.length then
            some (.replayGz compressed)
          else
            some (.replay cleaned)
      | none => none
    else
      some (.replay cleaned)
  else
    none

theorem strip_replicate_A (n : ℕ) :
    strip_terminal_queries (List.replicate n 0x41) = List.replicate n 0x41 :=
  strip_no_esc _ (by
    intro x hx
    rw [List.eq_of_mem_replicate hx]
    decide)

/-- C6 counterexample: (1) when the stripped bytes reach the 4096-byte
threshold and the gzip encoder fails, the `if let Ok(..)` in `send_replay`
has no `else` — no replay frame is emitted at all, instead of falling back
to an uncompressed `BUFFER_REPLAY`; (2) when the stripped result is empty
(here: below the threshold), no `BUFFER_REPLAY` is emitted either. -/
theorem send_replay_no_fallback_cex :
    send_replay_frame (fun _ => none) (List.replicate 4096 0x41) = none ∧
    send_replay_frame (fun cl => some (cl.take 1)) [] = none := by
  constructor
  · have hrep : (List.replicate 4096 (0x41 : ℕ)) ≠ [] := by
      apply List.ne_nil_of_length_pos
      rw [List.length_replicate]
      omega
    unfold send_replay_frame
    dsimp only
    rw [if_pos hrep, strip_replicate_A, if_pos hrep]
    rw [if_pos (by rw [List.length_replicate]; simp only [GZIP_THRESHOLD]; omega)]
  · rfl

/-- C6 as the code behaves, for an arbitrary gzip encoder and input: empty
stripped bytes emit no replay frame; nonempty below the threshold emit the
uncompressed frame; at or above the threshold a successful compression
emits the gzip frame iff it is strictly smaller and the uncompressed frame
otherwise, while a failed compression emits nothing. -/
theorem send_replay_frame_cases (gzip : List ℕ → Option (List ℕ)) (buf_data : List ℕ) :
    (strip_terminal_queries buf_data = [] → send_replay_frame gzip buf_data = none) ∧
    (strip_terminal_queries buf_data ≠ [] →
      ((strip_terminal_queries buf_data).length < GZIP_THRESHOLD →
        send_replay_frame gzip buf_data =
          some (.replay (strip_terminal_queries buf_data))) ∧
      (GZIP_THRESHOLD ≤ (strip_terminal_queries buf_data).length →
        (gzip (strip_terminal_queries buf_data) = none →
          send_replay_frame gzip buf_data = none) ∧
        (∀ comp, gzip (strip_terminal_queries buf_data) = some comp →
          (comp.length < (strip_terminal_queries buf_data).length →
            send_replay_frame gzip buf_data = some (.replayGz comp)) ∧
          ((strip_terminal_queries buf_data).length ≤ comp.length →
            send_replay_frame gzip buf_data =
              some (.replay (strip_terminal_queries buf_data)))))) := by
  have hcl : (if buf_data ≠ [] then strip_terminal_queries buf_data else []) =
      strip_terminal_queries buf_data := by
    split
    · rfl
    · rename_i h
      push_neg at h
      rw [h]
      simp [strip_terminal_queries]
  unfold send_replay_frame
  rw [hcl]
  refine ⟨?_, ?_⟩
  · intro h
    rw [if_neg (by simp [h])]
  · intro hne
    refine ⟨?_, ?_⟩
    · intro hlt
      rw [if_pos hne, if_neg (by omega)]
    · intro hge
      refine ⟨?_, ?_⟩
      · intro hnone
        rw [if_pos hne, if_pos hge, hnone]
      · intro comp hcomp
        refine ⟨?_, ?_⟩
        · intro hless
          rw [if_pos hne, if_pos hge, hcomp]
          dsimp only
          rw [if_pos hless]
        · intro hnl
          rw [if_pos hne, if_pos hge, hcomp]
          dsimp only
          rw [if_neg (by omega)]

/-- Witness for the amended C6: a 1-byte input below the threshold emits
the uncompressed frame; a 4096-byte input with a shrinking encoder emits
the gzip frame; with a non-shrinking encoder it emits the uncompressed
frame. -/
theorem send_replay_frame_cases_witness :
    send_replay_frame (fun _ => none) [0x41] = some (.replay [0x41]) ∧
    send_replay_frame (fun _ => some [0x42]) (List.replicate 4096 0x41) =
      some (.replayGz [0x42]) ∧
    send_replay_frame (fun cl => some cl) (List.replicate 4096 0x41) =
      some (.replay (List.replicate 4096 0x41)) := by
  have hne : strip_terminal_queries (List.replicate 4096 0x41) ≠ [] := by
    rw [strip_replicate_A]
    apply List.ne_nil_of_length_pos
    rw [List.length_replicate]
    omega
  have hth : GZIP_THRESHOLD ≤ (strip_terminal_queries (List.replicate 4096 0x41)).length := by
    rw [strip_replicate_A, List.length_replicate]
    simp only [GZIP_THRESHOLD]
    omega
  refine ⟨?_, ?_, ?_⟩
  · have h := ((send_replay_frame_cases (fun _ => none) [0x41]).2
      (by simp [strip_terminal_queries])).1
      (by simp [strip_terminal_queries, GZIP_THRESHOLD])
    rw [h]
    simp [strip_terminal_queries]
  · have h := ((((send_replay_frame_cases (fun _ => some [0x42])
        (List.replicate 4096 0x41)).2 hne).2 hth).2 [0x42] rfl).1
      (by rw [strip_replicate_A, List.length_replicate]
          simp only [List.length_cons, List.length_nil]
          omega)
    rw [h]
  · have h := ((((send_replay_frame_cases (fun cl => some cl)
        (List.replicate 4096 0x41)).2 hne).2 hth).2
      (List.replicate 4096 0x41) (by rw [strip_replicate_A])).2
      (by rw [strip_replicate_A])
    rw [h, strip_replicate_A]

-- ── Client frame decoding (`handle_client` / `read_first_message`) ──

/-- `u32::from_be_bytes` over the first 4 pending bytes. -/
def be32 (bytes : List ℕ) : ℕ := beBytesToNat (bytes.take 4)

/-- The steady-state frame parse loop of `handle_client`: while at least 4
bytes are pending, read the big-endian length, stop if the body is not yet
complete, otherwise split off the payload and continue; empty payloads are
skipped (`continue`).  Returns the dispatched payloads in order and the
leftover bytes. -/
def parseFrames (pending : List ℕ) : List (List ℕ) × List ℕ :=
  if h4 : 4 ≤ pending.length then
    let msg_len := be32 pending
    if pending.length < 4 + msg_len then
      ([], pending)
    else
      let payload := (pending.drop 4).take msg_len
      let rest := pending.drop (4 + msg_len)
      let r := parseFrames rest
      if payload = [] then r else (payload :: r.1, r.2)
  else
    ([], pending)
termination_by pending.length
decreasing_by
  simp only [List.length_drop]
  omega

/-- The handshake first-frame read (`read_first_message`): return the first
complete frame only when its length prefix is positive, otherwise keep
reading.  `chunks` are the successive successful socket reads still to
arrive; exhausting them models EOF (`Ok(0)`/`Err`). -/
def read_first_message (chunks : List (List ℕ)) (pending : List ℕ) :
    Option (ℕ × List ℕ) :=
  if 4 ≤ pending.length ∧ 4 + be32 pending ≤ pending.length ∧ 0 < be32 pending then
    let payload := (pending.drop 4).take (be32 pending)
    some (payload.headI, payload.tail)
  else
    match chunks with
    | [] => none
    | c :: cs => read_first_message cs (pending ++ c)

/-- C8 counterexample: a zero-length frame followed by a complete RESUME
frame (type 0x10, body `[0xAA]`) in the very first socket read.  The
handshake first-frame read never consumes the empty frame (`msg_len > 0`
fails forever) and returns nothing at EOF, although the same bytes without
the empty frame decode to the RESUME — the handshake does not skip empty
frames and drops everything behind one. -/
theorem read_first_message_empty_frame_cex :
    read_first_message [[0, 0, 0, 0, 0, 0, 0, 2, 0x10, 0xAA]] [] = none ∧
    read_first_message [[0, 0, 0, 2, 0x10, 0xAA]] [] = some (0x10, [0xAA]) := by
  constructor
  · rfl
  · rfl

/-- C8 as the code behaves: the steady-state loop consumes and drops a
zero-length frame and parses everything after it exactly as without it;
the handshake first-frame read, on a pending buffer headed by a
zero-length frame, never consumes it and returns nothing no matter how
many further reads arrive. -/
theorem empty_frame_handling :
    (∀ rest : List ℕ, parseFrames ([0, 0, 0, 0] ++ rest) = parseFrames rest) ∧
    (∀ (chunks : List (List ℕ)) (p : List ℕ),
      read_first_message chunks ([0, 0, 0, 0] ++ p) = none) := by
  constructor
  · intro rest
    simp only [List.cons_append, List.nil_append]
    have hbe : be32 (0 :: 0 :: 0 :: 0 :: rest) = 0 := rfl
    rw [parseFrames]
    rw [dif_pos (by simp)]
    rw [if_neg (by simp [hbe])]
    simp [hbe]
  · intro chunks
    induction chunks with
    | nil =>
      intro p
      rw [read_first_message]
      rw [if_neg (by simp [be32, beBytesToNat])]
    | cons c cs ih =>
      intro p
      rw [read_first_message]
      rw [if_neg (by simp [be32, beBytesToNat])]
      have h := ih (p ++ c)
      rw [List.append_assoc]
      exact h

-- ── Metrics broadcast task ──────────────────────────────────────────

/-- `any_nonzero` of a metrics tick: one of bps1/bps5/bps15 is at least
0.5 (= 1/2). -/
def anyNonzero (t : ℚ × ℚ × ℚ) : Bool :=
  decide (t.1 ≥ 1 / 2) || decide (t.2.1 ≥ 1 / 2) || decide (t.2.2 ≥ 1 / 2)

/-- One tick of the metrics broadcast task: given the stored
`last_metrics_nonzero` flag and the current (bps1, bps5, bps15), return
the SESSION_METRICS frame broadcast at this tick (carrying the current
values; `none` when nothing is broadcast) and the updated flag — the flag
is only assigned inside the broadcast branch, exactly as in the code. -/
def metricsTick (last_metrics_nonzero : Bool) (t : ℚ × ℚ × ℚ) :
    Option (ℚ × ℚ × ℚ) × Bool :=
  if anyNonzero t || last_metrics_nonzero then
    (some t, anyNonzero t)
  else
    (none, last_metrics_nonzero)

/-- Run the metrics task over successive ticks from a starting flag
(`false` at process start). -/
def metricsRun (last : Bool) : List (ℚ × ℚ × ℚ) → List (Option (ℚ × ℚ × ℚ)) × Bool
  | [] => ([], last)
  | t :: ts =>
    let r := metricsTick last t
    let rest := metricsRun r.2 ts
    (r.1 :: rest.1, rest.2)

theorem metricsTick_state (last : Bool) (t : ℚ × ℚ × ℚ) :
    (metricsTick last t).2 = anyNonzero t ∨
    ((metricsTick last t).2 = last ∧ anyNonzero t = false ∧ last = false) := by
  unfold metricsTick
  split
  · left; rfl
  · rename_i h
    simp only [Bool.or_eq_true] at h
    push_neg at h
    right
    exact ⟨rfl, by simpa using h.1, by simpa using h.2⟩

theorem metricsTick_next (last : Bool) (t : ℚ × ℚ × ℚ) :
    (metricsTick last t).2 = anyNonzero t := by
  rcases metricsTick_state last t with h | ⟨h1, h2, h3⟩
  · exact h
  · rw [h1, h3, h2]

theorem metricsTick_frame (last : Bool) (t : ℚ × ℚ × ℚ) :
    (metricsTick last t).1 =
      if anyNonzero t || last then some t else none := by
  unfold metricsTick
  split
  · rfl
  · rfl

theorem metricsRun_cons (last : Bool) (t : ℚ × ℚ × ℚ) (ts : List (ℚ × ℚ × ℚ)) :
    metricsRun last (t :: ts) =
      ((if anyNonzero t || last then some t else none) :: (metricsRun (anyNonzero t) ts).1,
        (metricsRun (anyNonzero t) ts).2) := by
  conv_lhs => rw [metricsRun]
  rw [metricsTick_frame, metricsTick_next]

theorem metrics_guard_aux :
    ∀ (ts : List (ℚ × ℚ × ℚ)) (s : Bool) (i : ℕ),
      ((metricsRun s ts).1.getD i none) ≠ none →
      anyNonzero (ts.getD i (0, 0, 0)) = true ∨
      (0 < i ∧ (metricsRun s ts).1.getD (i - 1) none ≠ none) ∨
      (i = 0 ∧ s = true) := by
  intro ts
  induction ts with
  | nil =>
    intro s i h
    simp [metricsRun] at h
  | cons t ts ih =>
    intro s i h
    rw [metricsRun_cons] at h ⊢
    match i with
    | 0 =>
      simp only [List.getD_cons_zero] at h
      by_cases hany : anyNonzero t = true
      · left
        simpa using hany
      · right; right
        refine ⟨rfl, ?_⟩
        simp only [Bool.not_eq_true] at hany
        rw [hany] at h
        simp only [Bool.false_or] at h
        by_cases hs : s = true
        · exact hs
        · simp only [Bool.not_eq_true] at hs
          rw [hs] at h
          simp at h
    | i + 1 =>
      simp only [List.getD_cons_succ] at h
      rcases ih (anyNonzero t) i h with h1 | ⟨h2, h3⟩ | ⟨h4, h5⟩
      · left
        simpa using h1
      · right; left
        obtain ⟨j, rfl⟩ : ∃ j, i = j + 1 := ⟨i - 1, by omega⟩
        simp only [Nat.add_sub_cancel] at h3
        refine ⟨by omega, ?_⟩
        simpa only [Nat.add_sub_cancel, List.getD_cons_succ] using h3
      · right; left
        subst h4
        refine ⟨by omega, ?_⟩
        simp only [Nat.add_sub_cancel, List.getD_cons_zero]
        rw [h5, Bool.true_or]
        simp

theorem metrics_decay_from_false :
    ∀ (ts : List (ℚ × ℚ × ℚ)), (∀ t ∈ ts, anyNonzero t = false) →
      (metricsRun false ts).1 = List.replicate ts.length none := by
  intro ts
  induction ts with
  | nil => intro _; rfl
  | cons t ts ih =>
    intro h
    have ht : anyNonzero t = false := h t (List.mem_cons_self t ts)
    rw [metricsRun_cons, ht]
    simp only [Bool.or_false, if_neg (by simp : ¬ (false = true))]
    rw [List.length_cons, List.replicate_succ]
    rw [ih (fun x hx => h x (List.mem_cons_of_mem t hx))]

/-- C9 counterexample: the trace bps1 = 1, then 2/5, then 0 (bps5 = bps15
= 0 throughout).  At the decay tick the task broadcasts one final frame,
but it carries the current values (2/5, 0, 0) — not zero — refuting "one
final zero-valued SESSION_METRICS frame". -/
theorem metrics_final_frame_nonzero_cex :
    (metricsRun false [(1, 0, 0), (2 / 5, 0, 0), (0, 0, 0)]).1 =
      [some (1, 0, 0), some (2 / 5, 0, 0), none] ∧
    ((2 / 5 : ℚ), (0 : ℚ), (0 : ℚ)) ≠ ((0 : ℚ), (0 : ℚ), (0 : ℚ)) := by
  have h1 : anyNonzero (1, 0, 0) = true := by
    simp only [anyNonzero]
    norm_num
  have h2 : anyNonzero (2 / 5, 0, 0) = false := by
    simp only [anyNonzero]
    norm_num
  have h3 : anyNonzero (0, 0, 0) = false := by
    simp only [anyNonzero]
    norm_num
  constructor
  · rw [metricsRun_cons, h1, metricsRun_cons, h2, metricsRun_cons, h3]
    simp [metricsRun]
  · intro hcontra
    have := congrArg Prod.fst hcontra
    norm_num at this

/-- C9 as the code behaves: (1) a SESSION_METRICS frame is broadcast at a
tick only when some bps window is ≥ 0.5 at that tick or the previous tick
broadcast one; (2) once every window is below 0.5, a session whose flag is
set broadcasts exactly one final frame — carrying the current sub-0.5
values — and then stops; (3) with the flag clear nothing is broadcast
while all windows stay below 0.5. -/
theorem metrics_broadcast_behaviour :
    (∀ (ts : List (ℚ × ℚ × ℚ)) (i : ℕ),
      (metricsRun false ts).1.getD i none ≠ none →
      anyNonzero (ts.getD i (0, 0, 0)) = true ∨
      (0 < i ∧ (metricsRun false ts).1.getD (i - 1) none ≠ none)) ∧
    (∀ (t0 : ℚ × ℚ × ℚ) (ts : List (ℚ × ℚ × ℚ)),
      (∀ t ∈ t0 :: ts, anyNonzero t = false) →
      (metricsRun true (t0 :: ts)).1 = some t0 :: List.replicate ts.length none) ∧
    (∀ (ts : List (ℚ × ℚ × ℚ)), (∀ t ∈ ts, anyNonzero t = false) →
      (metricsRun false ts).1 = List.replicate ts.length none) := by
  refine ⟨?_, ?_, metrics_decay_from_false⟩
  · intro ts i h
    rcases metrics_guard_aux ts false i h with h1 | h2 | ⟨-, h3⟩
    · exact Or.inl h1
    · exact Or.inr h2
    · exact absurd h3 (by simp)
  · intro t0 ts h
    have ht : anyNonzero t0 = false := h t0 (List.mem_cons_self t0 ts)
    rw [metricsRun_cons, ht]
    rw [metrics_decay_from_false ts (fun x hx => h x (List.mem_cons_of_mem t0 hx))]
    simp

/-- Witness for C9: the flag-set decay trace (1/4, 0, 0) then (0, 0, 0)
broadcasts exactly the one final sub-threshold frame; and on the trace
[(1, 0, 0)] the broadcast at tick 0 implies its bps1 ≥ 0.5 guard. -/
theorem metrics_broadcast_behaviour_witness :
    (metricsRun true [((1 / 4 : ℚ), (0 : ℚ), (0 : ℚ)), ((0 : ℚ), (0 : ℚ), (0 : ℚ))]).1 =
      [some (1 / 4, 0, 0), none] ∧
    (anyNonzero (((1 : ℚ), (0 : ℚ), (0 : ℚ))) = true ∨
      (0 < 0 ∧ (metricsRun false [((1 : ℚ), (0 : ℚ), (0 : ℚ))]).1.getD (0 - 1) none ≠ none)) := by
  constructor
  · have h := metrics_broadcast_behaviour.2.1 ((1 / 4 : ℚ), (0 : ℚ), (0 : ℚ))
      [((0 : ℚ), (0 : ℚ), (0 : ℚ))] ?_
    · simpa using h
    · intro t ht
      simp only [List.mem_cons, List.not_mem_nil, or_false] at ht
      rcases ht with rfl | rfl
      · simp only [anyNonzero]
        norm_num
      · simp only [anyNonzero]
        norm_num
  · apply metrics_broadcast_behaviour.1 [((1 : ℚ), (0 : ℚ), (0 : ℚ))] 0
    have h1 : anyNonzero (1, 0, 0) = true := by
      simp only [anyNonzero]
      norm_num
    rw [metricsRun_cons, h1]
    simp
